import Mathlib

/- Verification development for the hideifdef editor extension.
   The definitions below are a shallow embedding of src/extension.ts:
   the directive-line scanner (PREPROCESSOR_REGEX), the folding aggregator
   (collectHiddenFoldingRanges), the region cache ($inactiveRegionsMap),
   the visibility mode machine (MODES and the toggle command), the
   decoration synchronizer (getDecoration, updateEditorDecoration), and the
   event traces of the clangd notification handler and the toggle command. -/

namespace HideIfdef

/-- Model of the JavaScript regex whitespace class, restricted to the ASCII
whitespace characters that can occur inside a single document line. -/
def isJsSpace (c : Char) : Bool :=
  c == ' ' || c == '\t' || c == '\n' || c == '\r' || c == '\x0b' || c == '\x0c'

/-- Model of the JavaScript regex word-character class used by the word
boundary assertion: letters, digits and underscore. -/
def isWordChar (c : Char) : Bool :=
  c.isAlpha || c.isDigit || c == '_'

/-- The six directive keywords of PREPROCESSOR_REGEX, in alternation order. -/
def KEYWORDS : List String :=
  ["if", "ifdef", "ifndef", "elif", "else", "endif"]

/-- The word-boundary assertion placed after a keyword: it holds at end of
input or when the next character is not a word character (every keyword ends
in a word character, so only the following character matters). -/
def boundaryOk : List Char → Bool
  | [] => true
  | c :: _ => !isWordChar c

/-- The keyword alternation of PREPROCESSOR_REGEX applied at a position:
some keyword is a prefix of the remaining input and is followed by a word
boundary. -/
def keywordTest (s : List Char) : Bool :=
  KEYWORDS.any (fun k => k.data.isPrefixOf s && boundaryOk (s.drop k.data.length))

/-- Character-list core of PREPROCESSOR_REGEX, the regex
caret-backslash-s-star, hash, backslash-s-star, keyword alternation,
word boundary: skip leading whitespace, require a hash, skip whitespace
after the hash, then test the keyword alternation. -/
def matchesPreprocessorChars (cs : List Char) : Bool :=
  match cs.dropWhile isJsSpace with
  | c :: rest => c == '#' && keywordTest (rest.dropWhile isJsSpace)
  | [] => false

/-- PREPROCESSOR_REGEX.test applied to one document line. -/
def matchesPreprocessor (line : String) : Bool :=
  matchesPreprocessorChars line.data

/-- vscode.Position: zero-based line and character offsets. -/
structure Pos where
  line : Nat
  character : Nat
deriving DecidableEq

/-- vscode.Range: a start and an end position (the end position is named
stop here because of the Lean keyword). -/
structure Range where
  start : Pos
  stop : Pos
deriving DecidableEq

/-- FoldBlock, the model of vscode.FoldingRange as produced by
collectHiddenFoldingRanges: a start line and an end line. -/
structure FoldBlock where
  startLine : Nat
  endLine : Nat
deriving DecidableEq

/-- The inclusive line span of a range, as enumerated by the loop
for i from range.start.line to range.end.line in
collectHiddenFoldingRanges. -/
def rangeLines (r : Range) : List Nat :=
  (List.range (r.stop.line + 1 - r.start.line)).map (fun i => r.start.line + i)

/-- The directive scanner: the indices of the document lines matched by
PREPROCESSOR_REGEX (a document is modelled as its list of lines). -/
def directiveLines (doc : List String) : List Nat :=
  (List.range doc.length).filter (fun i => matchesPreprocessor (doc.getD i ""))

/-- The hidden lines gathered by collectHiddenFoldingRanges: every line
spanned by an inactive range together with every directive line, collected
into a JavaScript Set (modelled by deduplication in insertion order). -/
def hiddenLines (doc : List String) (inactiveRanges : List Range) : List Nat :=
  (inactiveRanges.flatMap rangeLines ++ directiveLines doc).dedup

/-- The grouping loop of collectHiddenFoldingRanges: extend the running
block while indices are consecutive, emit the closed block only when it
spans at least two lines. -/
def groupGo (blockStart blockEnd : Nat) : List Nat → List FoldBlock
  | [] => if blockStart < blockEnd then [⟨blockStart, blockEnd⟩] else []
  | x :: xs =>
    if x = blockEnd + 1 then
      groupGo blockStart x xs
    else
      (if blockStart < blockEnd then [⟨blockStart, blockEnd⟩] else []) ++ groupGo x x xs

/-- collectHiddenFoldingRanges: gather hidden lines, sort them ascending,
group consecutive runs, and keep the blocks spanning at least two lines
(an empty hidden set short-circuits to the empty output). -/
def collectHiddenFoldingRanges (doc : List String) (inactiveRanges : List Range) :
    List FoldBlock :=
  match List.insertionSort (· ≤ ·) (hiddenLines doc inactiveRanges) with
  | [] => []
  | x :: xs => groupGo x x xs

/-- The full range of one document line, as used for the preprocessor
decoration ranges (line.range in updateEditorDecoration). -/
def lineRange (i : Nat) (text : String) : Range :=
  ⟨⟨i, 0⟩, ⟨i, text.length⟩⟩

/-- The preprocessor decoration ranges of updateEditorDecoration: the full
line range of every line matched by PREPROCESSOR_REGEX. -/
def preprocessorRanges (doc : List String) : List Range :=
  (List.range doc.length).filterMap (fun i =>
    if matchesPreprocessor (doc.getD i "") then some (lineRange i (doc.getD i "")) else none)

/-- The three visibility modes of the extension. -/
inductive HideIfdefMode where
  | visible
  | hidden
  | hiddenFolded
deriving DecidableEq

/-- The MODES array fixing the cycling order of the toggle command. -/
def MODES : List HideIfdefMode :=
  [HideIfdefMode.visible, HideIfdefMode.hidden, HideIfdefMode.hiddenFolded]

/-- One step of the toggle command's mode advance:
MODES[(MODES.indexOf(mode) + 1) % MODES.length]. -/
def nextMode (m : HideIfdefMode) : HideIfdefMode :=
  MODES.getD ((MODES.indexOf m + 1) % MODES.length) HideIfdefMode.visible

/-- The decoration range list chosen by updateEditorDecoration: inactive
ranges plus the preprocessor line ranges outside Visible mode, inactive
ranges alone in Visible mode. -/
def decorationRanges (mode : HideIfdefMode) (doc : List String)
    (inactiveRanges : List Range) : List Range :=
  if mode ≠ HideIfdefMode.visible then inactiveRanges ++ preprocessorRanges doc
  else inactiveRanges

/-- The set of line numbers covered by a list of decoration ranges. -/
def coveredLines (rs : List Range) : Finset Nat :=
  (rs.flatMap rangeLines).toFinset

/-- The region cache $inactiveRegionsMap: a map from document keys to the
most recently received inactive ranges. -/
def Cache : Type := String → Option (List Range)

/-- The empty cache (a freshly created map). -/
def emptyCache : Cache := fun _ => none

/-- Map.get with the null-coalescing default used at every call site:
the stored list, or the empty list when the key is absent. -/
def cacheGet (c : Cache) (k : String) : List Range :=
  (c k).getD []

/-- Map.set: full replacement of the entry for the key. -/
def cacheSet (c : Cache) (k : String) (v : List Range) : Cache :=
  fun k' => if k' = k then some v else c k'

/-- A text editor decoration type: its opacity string and an identity tag
distinguishing separately created instances. -/
structure DecorationType where
  opacity : String
  id : Nat
deriving DecidableEq

/-- The mutable state read and written by getDecoration: $lastDecoration,
$lastOpacity, and a counter supplying fresh identities. -/
structure DecorationState where
  lastDecoration : Option DecorationType
  lastOpacity : String
  nextId : Nat
deriving DecidableEq

/-- The outcome of one getDecoration call: the returned decoration, the
updated state, and the decoration types disposed during the call. -/
structure GetDecorationResult where
  decoration : DecorationType
  state : DecorationState
  disposed : List DecorationType
deriving DecidableEq

/-- getDecoration: derive the target opacity from the mode (the local
configured opacity outside Visible mode, the clangd configured opacity in
Visible mode, both already stringified), return the cached decoration when
the opacity is unchanged, otherwise dispose the old decoration and create a
new one. -/
def getDecoration (mode : HideIfdefMode) (hideIfdefOpacity clangdOpacity : String)
    (st : DecorationState) : GetDecorationResult :=
  let targetOpacity := if mode ≠ HideIfdefMode.visible then hideIfdefOpacity else clangdOpacity
  match st.lastDecoration with
  | some d =>
    if st.lastOpacity = targetOpacity then ⟨d, st, []⟩
    else
      let newDecoration : DecorationType := ⟨targetOpacity, st.nextId⟩
      ⟨newDecoration, ⟨some newDecoration, targetOpacity, st.nextId + 1⟩, [d]⟩
  | none =>
    let newDecoration : DecorationType := ⟨targetOpacity, st.nextId⟩
    ⟨newDecoration, ⟨some newDecoration, targetOpacity, st.nextId + 1⟩, []⟩

/-- A visible text editor: its document lines, its uri scheme, its language
identifier, and its file-system path. -/
structure TextEditor where
  doc : List String
  scheme : String
  languageId : String
  fsPath : String
deriving DecidableEq

/-- The document key of an editor: its file-system path lowercased
character by character (fsPath.toLowerCase()). -/
def editorKey (e : TextEditor) : String := String.mk (e.fsPath.data.map Char.toLower)

/-- The observable commands and state mutations issued by the handlers. -/
inductive Event where
  | unfold (selectionLines : List Nat)
  | cacheWrite (key : String) (regions : List Range)
  | fireFoldingChanged
  | setDecorations (key : String) (ranges : List Range)
  | fold (selectionLines : List Nat)
  | persistMode (mode : HideIfdefMode)
  | statusBar (mode : HideIfdefMode)
deriving DecidableEq

/-- The guarded unfold command issued for a list of fold blocks: a command
targeting the block start lines, issued only when the list is nonempty. -/
def unfoldEventFor (blocks : List FoldBlock) : Option Event :=
  if blocks = [] then none else some (Event.unfold (blocks.map FoldBlock.startLine))

/-- updateEditorDecoration: a no-op for a view that is not a file-backed
C or C++ view, otherwise one setDecorations command carrying the decoration
ranges derived from the cached inactive ranges and the mode. -/
def updateEditorDecorationEvent (mode : HideIfdefMode) (cache : Cache)
    (editor : TextEditor) : Option Event :=
  if editor.scheme ≠ "file" ∨ (editor.languageId ≠ "c" ∧ editor.languageId ≠ "cpp") then
    none
  else
    let inactiveRanges := cacheGet cache (editorKey editor)
    some (Event.setDecorations (editorKey editor)
      (decorationRanges mode editor.doc inactiveRanges))

/-- autoFoldHiddenRanges: outside HiddenFolded mode, or for a view that is
not a file-backed C or C++ view, or when no fold block exists, no command;
otherwise one fold command targeting the block start lines computed from
the cached inactive ranges. -/
def autoFoldHiddenRanges (mode : HideIfdefMode) (cache : Cache)
    (editor : TextEditor) : Option Event :=
  if mode ≠ HideIfdefMode.hiddenFolded then none
  else if editor.scheme ≠ "file" ∨ (editor.languageId ≠ "c" ∧ editor.languageId ≠ "cpp") then
    none
  else
    let docKey := editorKey editor
    let inactiveRanges := cacheGet cache docKey
    let foldingRanges := collectHiddenFoldingRanges editor.doc inactiveRanges
    if foldingRanges = [] then none
    else some (Event.fold (foldingRanges.map FoldBlock.startLine))

/-- updateActiveEditor: decorate the active editor first, then every other
visible editor. -/
def updateActiveEditorEvents (mode : HideIfdefMode) (cache : Cache)
    (active : Option TextEditor) (visible : List TextEditor) : List Event :=
  (match active with
   | some a => (updateEditorDecorationEvent mode cache a).toList
   | none => []) ++
  (visible.filter (fun e => decide (some e ≠ active))).filterMap
    (updateEditorDecorationEvent mode cache)

/-- The clangd inactive-regions notification handler: for the affected
editors, in HiddenFolded mode first unfold the fold blocks computed from
the old cache contents, then overwrite the cache entry, fire the
folding-changed signal, redecorate, and finally auto-fold the blocks
computed from the new cache contents. Returns the event trace and the
updated cache. -/
def onInactiveRegionsNotification (mode : HideIfdefMode) (cache : Cache)
    (docKey : String) (regions : List Range) (visibleTextEditors : List TextEditor) :
    List Event × Cache :=
  let affectedEditors := visibleTextEditors.filter (fun e => decide (editorKey e = docKey))
  let unfoldEvents :=
    if mode = HideIfdefMode.hiddenFolded then
      affectedEditors.filterMap (fun e =>
        unfoldEventFor (collectHiddenFoldingRanges e.doc (cacheGet cache docKey)))
    else []
  let newCache := cacheSet cache docKey regions
  let decorateEvents := affectedEditors.filterMap (updateEditorDecorationEvent mode newCache)
  let foldEvents := affectedEditors.filterMap (autoFoldHiddenRanges mode newCache)
  (unfoldEvents ++
      Event.cacheWrite docKey regions :: Event.fireFoldingChanged ::
        (decorateEvents ++ foldEvents),
    newCache)

/-- The toggle command handler: advance the mode one step, persist it, fire
the folding-changed signal, refresh the status bar, redecorate every
editor; when the transition leaves HiddenFolded for Visible, unfold the
fold blocks of every visible editor computed from the current cache; when
the transition enters HiddenFolded, auto-fold every visible editor.
Returns the new mode and the event trace. -/
def toggleCommand (mode : HideIfdefMode) (cache : Cache)
    (active : Option TextEditor) (visible : List TextEditor) :
    HideIfdefMode × List Event :=
  let previousMode := mode
  let newMode := nextMode mode
  let baseEvents := [Event.persistMode newMode, Event.fireFoldingChanged,
    Event.statusBar newMode]
  let decorateEvents := updateActiveEditorEvents newMode cache active visible
  let unfoldEvents :=
    if newMode = HideIfdefMode.visible ∧ previousMode = HideIfdefMode.hiddenFolded then
      visible.filterMap (fun e =>
        unfoldEventFor (collectHiddenFoldingRanges e.doc (cacheGet cache (editorKey e))))
    else []
  let foldEvents :=
    if newMode = HideIfdefMode.hiddenFolded then
      visible.filterMap (autoFoldHiddenRanges newMode cache)
    else []
  (newMode, baseEvents ++ (decorateEvents ++ (unfoldEvents ++ foldEvents)))

/-- Declarative scanner condition following the spec sentence of claim C4
word for word: after stripping leading whitespace and an optional hash with
optional following spaces, the rest starts with one of the keywords. -/
def specFlagsLine (line : String) : Prop :=
  ∃ (ws rest : List Char) (k : String),
    k ∈ KEYWORDS ∧ (∀ c ∈ ws, isJsSpace c = true) ∧
    ((∃ hs : List Char, (∀ c ∈ hs, isJsSpace c = true) ∧
        line.data = ws ++ '#' :: (hs ++ (k.data ++ rest))) ∨
      line.data = ws ++ (k.data ++ rest))

/-- Declarative scanner condition as amended: the hash is mandatory and the
keyword must end at a word boundary. -/
def specFlagsLineAmended (line : String) : Prop :=
  ∃ (ws hs rest : List Char) (k : String),
    k ∈ KEYWORDS ∧ (∀ c ∈ ws, isJsSpace c = true) ∧ (∀ c ∈ hs, isJsSpace c = true) ∧
    line.data = ws ++ '#' :: (hs ++ (k.data ++ rest)) ∧ boundaryOk rest = true

/-- The five-line scenario document of the spec. -/
def demoDoc : List String :=
  ["#if 1", "int x;", "#else", "int y;", "#endif"]

/-- The externally reported inactive region of the scenario, covering
lines 2 and 3. -/
def demoInactive : List Range :=
  [⟨⟨2, 0⟩, ⟨3, 6⟩⟩]

/-- C6: the mode cycle is closed: three applications of the toggle
command's mode advance return every mode to itself, and each single
advance follows the fixed order Visible, Hidden, HiddenFolded, Visible. -/
theorem nextMode_cycle :
    (∀ m : HideIfdefMode, nextMode (nextMode (nextMode m)) = m) ∧
    nextMode HideIfdefMode.visible = HideIfdefMode.hidden ∧
    nextMode HideIfdefMode.hidden = HideIfdefMode.hiddenFolded ∧
    nextMode HideIfdefMode.hiddenFolded = HideIfdefMode.visible := by
  refine ⟨fun m => ?_, rfl, rfl, rfl⟩
  cases m <;> rfl

/-- C8: a region cache update fully replaces the stored entry: after two
updates the second list is stored; updating twice with the same list equals
updating once; a never-updated key reads as the empty list; updating with
the empty list leaves the key reading empty, so the fold blocks derived
afterwards are exactly the ones derived from the directive lines alone. -/
theorem regionCache_replaces :
    (∀ (c : Cache) (k : String) (R1 R2 : List Range),
      cacheGet (cacheSet (cacheSet c k R1) k R2) k = R2) ∧
    (∀ (c : Cache) (k : String) (R : List Range),
      cacheSet (cacheSet c k R) k R = cacheSet c k R) ∧
    (∀ k : String, cacheGet emptyCache k = []) ∧
    (∀ (c : Cache) (k : String), cacheGet (cacheSet c k []) k = []) ∧
    (∀ (c : Cache) (k : String) (doc : List String),
      collectHiddenFoldingRanges doc (cacheGet (cacheSet c k []) k) =
        collectHiddenFoldingRanges doc []) := by
  refine ⟨fun c k R1 R2 => ?_, fun c k R => ?_, fun k => rfl, fun c k => ?_,
    fun c k doc => ?_⟩
  · simp [cacheGet, cacheSet]
  · funext k'
    by_cases h : k' = k <;> simp [cacheSet, h]
  · simp [cacheGet, cacheSet]
  · have h : cacheGet (cacheSet c k []) k = [] := by simp [cacheGet, cacheSet]
    rw [h]

/-- C3: on the five-line scenario document with the inactive region
covering lines 2 and 3, the directive scanner flags exactly lines 0, 2 and
4; the hidden-mode decoration ranges cover exactly lines 0, 2, 3 and 4; and
the folding aggregator yields exactly the single block from line 2 to
line 4. -/
theorem demo_scenario :
    directiveLines demoDoc = [0, 2, 4] ∧
    coveredLines (decorationRanges HideIfdefMode.hidden demoDoc demoInactive) =
      ({0, 2, 3, 4} : Finset Nat) ∧
    collectHiddenFoldingRanges demoDoc demoInactive = [⟨2, 4⟩] := by
  refine ⟨by decide, by decide, by decide⟩

/-- C7: for a fixed document and cache contents, the ranges decorated in
Hidden or HiddenFolded mode are the Visible-mode ranges plus exactly the
directive-line ranges, hence a superset of the Visible-mode ranges. -/
theorem decorationRanges_superset (mode : HideIfdefMode) (doc : List String)
    (inactiveRanges : List Range) (h : mode ≠ HideIfdefMode.visible) :
    decorationRanges mode doc inactiveRanges =
      decorationRanges HideIfdefMode.visible doc inactiveRanges ++
        preprocessorRanges doc ∧
    ∀ r ∈ decorationRanges HideIfdefMode.visible doc inactiveRanges,
      r ∈ decorationRanges mode doc inactiveRanges := by
  constructor
  · simp [decorationRanges, h]
  · intro r hr
    have h1 : decorationRanges mode doc inactiveRanges =
        decorationRanges HideIfdefMode.visible doc inactiveRanges ++
          preprocessorRanges doc := by
      simp [decorationRanges, h]
    rw [h1]
    exact List.mem_append_left _ hr

/-- Witness for C7 at a concrete mode, document and cache contents. -/
theorem decorationRanges_superset_witness :
    decorationRanges HideIfdefMode.hidden demoDoc demoInactive =
      decorationRanges HideIfdefMode.visible demoDoc demoInactive ++
        preprocessorRanges demoDoc :=
  (decorationRanges_superset HideIfdefMode.hidden demoDoc demoInactive
    (by decide)).1

/-- C9: getDecoration derives the target opacity from the mode (the clangd
opacity in Visible mode, the locally configured opacity otherwise); when a
cached decoration exists and the recorded opacity equals the target it is
returned with the state unchanged and nothing disposed; otherwise a new
decoration carrying the target opacity is created and stored and the old
decoration, when present, is disposed. -/
theorem getDecoration_spec (mode : HideIfdefMode) (lo co : String)
    (st : DecorationState) :
    (∀ d, st.lastDecoration = some d →
      st.lastOpacity = (if mode = HideIfdefMode.visible then co else lo) →
      getDecoration mode lo co st = ⟨d, st, []⟩) ∧
    ((st.lastDecoration = none ∨
        st.lastOpacity ≠ (if mode = HideIfdefMode.visible then co else lo)) →
      (getDecoration mode lo co st).decoration.opacity =
          (if mode = HideIfdefMode.visible then co else lo) ∧
        (getDecoration mode lo co st).state.lastDecoration =
          some (getDecoration mode lo co st).decoration ∧
        (getDecoration mode lo co st).state.lastOpacity =
          (if mode = HideIfdefMode.visible then co else lo) ∧
        (getDecoration mode lo co st).disposed = st.lastDecoration.toList) := by
  have htarget : (if mode ≠ HideIfdefMode.visible then lo else co) =
      (if mode = HideIfdefMode.visible then co else lo) := by
    by_cases h : mode = HideIfdefMode.visible <;> simp [h]
  constructor
  · intro d hd hop
    simp [getDecoration, htarget, hd, hop]
  · intro hcase
    rcases hld : st.lastDecoration with _ | d
    · simp [getDecoration, htarget, hld]
    · have hne : st.lastOpacity ≠ (if mode = HideIfdefMode.visible then co else lo) := by
        rcases hcase with h | h
        · rw [hld] at h
          cases h
        · exact h
      simp [getDecoration, htarget, hld, hne]

/-- Witness for C9 at a concrete mode, opacity pair and cached state. -/
theorem getDecoration_spec_witness :
    getDecoration HideIfdefMode.hidden "0" "0.55" ⟨some ⟨"0", 0⟩, "0", 1⟩ =
      ⟨⟨"0", 0⟩, ⟨some ⟨"0", 0⟩, "0", 1⟩, []⟩ :=
  (getDecoration_spec HideIfdefMode.hidden "0" "0.55"
    ⟨some ⟨"0", 0⟩, "0", 1⟩).1 ⟨"0", 0⟩ rfl (by decide)

/-- Every block emitted by the grouping loop spans at least two lines. -/
theorem groupGo_spans (xs : List Nat) :
    ∀ (s e : Nat) (b : FoldBlock), b ∈ groupGo s e xs → b.startLine < b.endLine := by
  induction xs with
  | nil =>
    intro s e b hb
    by_cases h : s < e <;> simp [groupGo, h] at hb
    subst hb
    exact h
  | cons x xs ih =>
    intro s e b hb
    by_cases hx : x = e + 1
    · simp only [groupGo, if_pos hx] at hb
      exact ih s x b hb
    · by_cases hse : s < e <;> simp [groupGo, hx, hse] at hb
      · rcases hb with rfl | hb
        · exact hse
        · exact ih x x b hb
      · exact ih x x b hb

/-- On a strictly ascending input whose head extends the running block, the
grouping loop emits blocks whose start lines are strictly ascending and
bounded below by the running block start. -/
theorem groupGo_sorted (xs : List Nat) :
    ∀ s e : Nat, s ≤ e → List.Pairwise (· < ·) (e :: xs) →
      ((groupGo s e xs).map FoldBlock.startLine).Sorted (· < ·) ∧
      ∀ b ∈ groupGo s e xs, s ≤ b.startLine := by
  induction xs with
  | nil =>
    intro s e hse _
    by_cases h : s < e <;> simp [groupGo, h, List.Sorted]
  | cons x xs ih =>
    intro s e hse hp
    have hex : e < x := (List.pairwise_cons.mp hp).1 x (List.mem_cons_self x xs)
    have hp' : List.Pairwise (· < ·) (x :: xs) := (List.pairwise_cons.mp hp).2
    by_cases hx : x = e + 1
    · have hsx : s ≤ x := le_trans hse (le_of_lt hex)
      have := ih s x hsx hp'
      simpa only [groupGo, if_pos hx] using this
    · obtain ⟨ihs, ihge⟩ := ih x x le_rfl hp'
      have hsx : s < x := lt_of_le_of_lt hse hex
      by_cases hse' : s < e
      · have hgg : groupGo s e (x :: xs) = ⟨s, e⟩ :: groupGo x x xs := by
          simp [groupGo, hx, hse']
        rw [hgg, List.map_cons]
        constructor
        · refine (List.sorted_cons).mpr ⟨?_, ihs⟩
          intro y hy
          obtain ⟨b, hb, rfl⟩ := List.mem_map.mp hy
          exact lt_of_lt_of_le hsx (ihge b hb)
        · intro b hb
          rcases List.mem_cons.mp hb with rfl | hb
          · exact le_refl s
          · exact le_trans (le_of_lt hsx) (ihge b hb)
      · have hgg : groupGo s e (x :: xs) = groupGo x x xs := by
          simp [groupGo, hx, hse']
        rw [hgg]
        exact ⟨ihs, fun b hb => le_trans (le_of_lt hsx) (ihge b hb)⟩

/-- The sorted hidden-line list fed into the grouping loop is strictly
ascending. -/
theorem sortedHidden_sorted (doc : List String) (inactiveRanges : List Range) :
    (List.insertionSort (· ≤ ·) (hiddenLines doc inactiveRanges)).Sorted (· < ·) :=
  (List.sorted_insertionSort _ _).lt_of_le
    (((List.perm_insertionSort _ _).nodup_iff).mpr (List.nodup_dedup _))

/-- C1: the folding aggregator always returns blocks sorted strictly
ascending by start line, every block spans at least two lines, and with no
inactive regions and no directive lines the output is empty. -/
theorem collectHiddenFoldingRanges_spec (doc : List String)
    (inactiveRanges : List Range) :
    ((collectHiddenFoldingRanges doc inactiveRanges).map FoldBlock.startLine).Sorted (· < ·) ∧
    (∀ b ∈ collectHiddenFoldingRanges doc inactiveRanges, b.startLine < b.endLine) ∧
    (inactiveRanges = [] →
      (∀ line ∈ doc, matchesPreprocessor line = false) →
      collectHiddenFoldingRanges doc inactiveRanges = []) := by
  refine ⟨?_, ?_, ?_⟩
  · have hs := sortedHidden_sorted doc inactiveRanges
    unfold collectHiddenFoldingRanges
    rcases hL : List.insertionSort (· ≤ ·) (hiddenLines doc inactiveRanges) with _ | ⟨x, xs⟩
    · simp
    · rw [hL] at hs
      exact (groupGo_sorted xs x x le_rfl hs).1
  · intro b hb
    unfold collectHiddenFoldingRanges at hb
    rcases hL : List.insertionSort (· ≤ ·) (hiddenLines doc inactiveRanges) with _ | ⟨x, xs⟩
    · rw [hL] at hb
      cases hb
    · rw [hL] at hb
      exact groupGo_spans xs x x b hb
  · intro h1 h2
    have hdir : directiveLines doc = [] := by
      apply List.filter_eq_nil_iff.mpr
      intro i hi
      have hlt := List.mem_range.mp hi
      rw [List.getD_eq_getElem doc "" hlt]
      simp [h2 doc[i] (List.getElem_mem hlt)]
    have hh : hiddenLines doc inactiveRanges = [] := by
      simp [hiddenLines, h1, hdir]
    unfold collectHiddenFoldingRanges
    rw [hh]
    rfl

/-- Witness for C1 on a directive-free one-line document with no inactive
regions: the aggregator output is empty. -/
theorem collectHiddenFoldingRanges_spec_witness :
    collectHiddenFoldingRanges ["int x;"] [] = [] :=
  (collectHiddenFoldingRanges_spec ["int x;"] []).2.2 rfl (by decide)

/-- Dropping while a predicate holds skips any prefix on which the
predicate holds everywhere. -/
theorem dropWhile_append_of_forall (p : Char → Bool) (ws l : List Char)
    (h : ∀ c ∈ ws, p c = true) : (ws ++ l).dropWhile p = l.dropWhile p := by
  induction ws with
  | nil => rfl
  | cons a as ih =>
    rw [List.cons_append, List.dropWhile_cons, if_pos (h a (List.mem_cons_self a as))]
    exact ih (fun c hc => h c (List.mem_cons_of_mem a hc))

/-- Every keyword is nonempty and starts with a non-whitespace character. -/
theorem keyword_head (k : String) (hk : k ∈ KEYWORDS) :
    ∃ c cs, k.data = c :: cs ∧ isJsSpace c = false := by
  simp only [KEYWORDS, List.mem_cons, List.not_mem_nil, or_false] at hk
  rcases hk with rfl | rfl | rfl | rfl | rfl | rfl <;> exact ⟨_, _, rfl, rfl⟩

/-- Counterexample to C4 as stated: the line starting directly with the
keyword and no hash satisfies the claimed condition, yet the scanner does
not flag it, because the hash in the regex is mandatory. -/
theorem specFlagsLine_no_hash_counterexample :
    specFlagsLine "if x" ∧ matchesPreprocessor "if x" = false := by
  constructor
  · exact ⟨[], [' ', 'x'], "if", by decide, by simp, Or.inr (by decide)⟩
  · decide

/-- C4 (amended): a line is flagged exactly when, after leading whitespace,
it carries a mandatory hash, optional further whitespace, and one of the
six keywords ending at a word boundary. -/
theorem matchesPreprocessor_iff (line : String) :
    matchesPreprocessor line = true ↔ specFlagsLineAmended line := by
  constructor
  · intro h
    unfold matchesPreprocessor matchesPreprocessorChars at h
    rcases hd : line.data.dropWhile isJsSpace with _ | ⟨c, rest⟩
    · rw [hd] at h
      cases h
    · rw [hd] at h
      simp only [Bool.and_eq_true] at h
      obtain ⟨hc, hkt⟩ := h
      have hc' : c = '#' := beq_iff_eq.mp hc
      obtain ⟨k, hkmem, hkp⟩ := List.any_eq_true.mp hkt
      simp only [Bool.and_eq_true] at hkp
      obtain ⟨hpre, hbnd⟩ := hkp
      obtain ⟨t, ht⟩ := List.isPrefixOf_iff_prefix.mp hpre
      refine ⟨line.data.takeWhile isJsSpace, rest.takeWhile isJsSpace, t, k, hkmem,
        fun ch hch => List.mem_takeWhile_imp hch,
        fun ch hch => List.mem_takeWhile_imp hch, ?_, ?_⟩
      · conv_lhs => rw [← List.takeWhile_append_dropWhile isJsSpace line.data]
        rw [hd, hc']
        congr 1
        conv_lhs => rw [← List.takeWhile_append_dropWhile isJsSpace rest]
        rw [← ht]
      · rw [← ht, List.drop_left] at hbnd
        exact hbnd
  · rintro ⟨ws, hs, rest, k, hkmem, hws, hhs, heq, hbnd⟩
    unfold matchesPreprocessor matchesPreprocessorChars
    rw [heq, dropWhile_append_of_forall _ _ _ hws, List.dropWhile_cons]
    rw [if_neg (by decide : ¬ isJsSpace '#' = true)]
    have h2 : (hs ++ (k.data ++ rest)).dropWhile isJsSpace = k.data ++ rest := by
      rw [dropWhile_append_of_forall _ _ _ hhs]
      obtain ⟨c, cs, hkd, hcns⟩ := keyword_head k hkmem
      rw [hkd, List.cons_append, List.dropWhile_cons, if_neg (by simp [hcns])]
    simp only [h2]
    simp only [Bool.and_eq_true]
    refine ⟨by decide, List.any_eq_true.mpr ⟨k, hkmem, ?_⟩⟩
    simp only [Bool.and_eq_true]
    refine ⟨List.isPrefixOf_iff_prefix.mpr ⟨rest, rfl⟩, ?_⟩
    rw [List.drop_left]
    exact hbnd

/-- Witness for the amended C4 on a concrete flagged line with leading
whitespace and spaces after the hash. -/
theorem matchesPreprocessor_iff_witness :
    specFlagsLineAmended " # ifdef FOO" :=
  (matchesPreprocessor_iff " # ifdef FOO").mp (by decide)

/-- C10: a keyword match counts only when it ends at a word boundary:
lines whose text after the hash merely begins with a keyword followed by a
further word character are not flagged, while a keyword followed by a
non-word character or by the end of the line is flagged. -/
theorem preprocessorRegex_boundary :
    matchesPreprocessor "#iffy" = false ∧
    matchesPreprocessor "#endiffoo" = false ∧
    matchesPreprocessor "#ifdef X" = true ∧
    matchesPreprocessor "#ifdef" = true ∧
    ∀ c : Char, isWordChar c = true →
      matchesPreprocessor (String.mk ['#', 'i', 'f', c]) = false := by
  refine ⟨by decide, by decide, by decide, by decide, fun c hc => ?_⟩
  have h1 : matchesPreprocessor (String.mk ['#', 'i', 'f', c]) =
      keywordTest ['i', 'f', c] := rfl
  rw [h1, keywordTest]
  simp only [KEYWORDS, List.any_cons, List.any_nil]
  simp [List.isPrefixOf, boundaryOk, hc]

/-- Witness for C10 at the concrete word character d: the line made of
hash, i, f, d is not flagged. -/
theorem preprocessorRegex_boundary_witness :
    isWordChar 'd' = true ∧ matchesPreprocessor (String.mk ['#', 'i', 'f', 'd']) = false :=
  ⟨by decide, preprocessorRegex_boundary.2.2.2.2 'd' (by decide)⟩


/-- A guarded unfold command, when issued, targets the block start lines
and only exists for a nonempty block list. -/
theorem unfoldEventFor_shape (blocks : List FoldBlock) (ev : Event)
    (h : unfoldEventFor blocks = some ev) :
    ev = Event.unfold (blocks.map FoldBlock.startLine) ∧ blocks ≠ [] := by
  unfold unfoldEventFor at h
  split_ifs at h with hb
  exact ⟨(Option.some.inj h).symm, hb⟩

/-- A decoration update, when issued, is a setDecorations command. -/
theorem updateEditorDecorationEvent_shape (mode : HideIfdefMode) (cache : Cache)
    (e : TextEditor) (ev : Event)
    (h : updateEditorDecorationEvent mode cache e = some ev) :
    ∃ k rs, ev = Event.setDecorations k rs := by
  simp only [updateEditorDecorationEvent] at h
  split_ifs at h
  exact ⟨_, _, (Option.some.inj h).symm⟩

/-- An auto-fold command, when issued, happens in HiddenFolded mode only
and targets the start lines of the blocks computed from the cache. -/
theorem autoFoldHiddenRanges_shape (mode : HideIfdefMode) (cache : Cache)
    (e : TextEditor) (ev : Event)
    (h : autoFoldHiddenRanges mode cache e = some ev) :
    mode = HideIfdefMode.hiddenFolded ∧
    ev = Event.fold ((collectHiddenFoldingRanges e.doc
      (cacheGet cache (editorKey e))).map FoldBlock.startLine) := by
  simp only [autoFoldHiddenRanges] at h
  split_ifs at h with h1 h2 h3
  exact ⟨not_not.mp h1, (Option.some.inj h).symm⟩

/-- A file-backed C or C++ editor with a nonempty block list receives an
auto-fold command in HiddenFolded mode. -/
theorem autoFoldHiddenRanges_eq_some (cache : Cache) (e : TextEditor)
    (h1 : e.scheme = "file") (h2 : e.languageId = "c" ∨ e.languageId = "cpp")
    (h3 : collectHiddenFoldingRanges e.doc (cacheGet cache (editorKey e)) ≠ []) :
    autoFoldHiddenRanges HideIfdefMode.hiddenFolded cache e =
      some (Event.fold ((collectHiddenFoldingRanges e.doc
        (cacheGet cache (editorKey e))).map FoldBlock.startLine)) := by
  simp only [autoFoldHiddenRanges]
  rw [if_neg (by simp), if_neg (by rcases h2 with h | h <;> simp [h1, h]), if_neg h3]


/-- C2: in HiddenFolded mode the notification handler first issues unfold
commands computed from the old cache contents, then overwrites the cache
entry, and only afterwards issues fold commands computed from the newly
stored regions; every unfold precedes the cache write, every fold follows
it, and the affected file-backed C or C++ editors with nonempty blocks each
receive their fold command. -/
theorem notification_order (mode : HideIfdefMode) (cache : Cache) (docKey : String)
    (regions : List Range) (visible : List TextEditor)
    (h : mode = HideIfdefMode.hiddenFolded) :
    (onInactiveRegionsNotification mode cache docKey regions visible).2 =
      cacheSet cache docKey regions ∧
    ∃ pre post,
      (onInactiveRegionsNotification mode cache docKey regions visible).1 =
        pre ++ Event.cacheWrite docKey regions :: post ∧
      (∀ ev ∈ pre, ∀ L, ev ≠ Event.fold L) ∧
      (∀ ev ∈ post, ∀ L, ev ≠ Event.unfold L) ∧
      (∀ L, Event.unfold L ∈ pre → ∃ e ∈ visible, editorKey e = docKey ∧
        L = (collectHiddenFoldingRanges e.doc (cacheGet cache docKey)).map FoldBlock.startLine) ∧
      (∀ e ∈ visible, editorKey e = docKey →
        collectHiddenFoldingRanges e.doc (cacheGet cache docKey) ≠ [] →
        Event.unfold ((collectHiddenFoldingRanges e.doc (cacheGet cache docKey)).map
          FoldBlock.startLine) ∈ pre) ∧
      (∀ L, Event.fold L ∈ post → ∃ e ∈ visible, editorKey e = docKey ∧
        L = (collectHiddenFoldingRanges e.doc regions).map FoldBlock.startLine) ∧
      (∀ e ∈ visible, editorKey e = docKey → e.scheme = "file" →
        (e.languageId = "c" ∨ e.languageId = "cpp") →
        collectHiddenFoldingRanges e.doc regions ≠ [] →
        Event.fold ((collectHiddenFoldingRanges e.doc regions).map FoldBlock.startLine)
          ∈ post) := by
  subst h
  refine ⟨rfl, ?_⟩
  refine ⟨(visible.filter (fun e => decide (editorKey e = docKey))).filterMap
      (fun e => unfoldEventFor (collectHiddenFoldingRanges e.doc (cacheGet cache docKey))),
    Event.fireFoldingChanged ::
      ((visible.filter (fun e => decide (editorKey e = docKey))).filterMap
          (updateEditorDecorationEvent HideIfdefMode.hiddenFolded
            (cacheSet cache docKey regions)) ++
        (visible.filter (fun e => decide (editorKey e = docKey))).filterMap
          (autoFoldHiddenRanges HideIfdefMode.hiddenFolded
            (cacheSet cache docKey regions))),
    rfl, ?_, ?_, ?_, ?_, ?_, ?_⟩
  · intro ev hev L
    obtain ⟨e, he, hsome⟩ := List.mem_filterMap.mp hev
    obtain ⟨rfl, hne⟩ := unfoldEventFor_shape _ _ hsome
    simp
  · intro ev hev L
    rcases List.mem_cons.mp hev with rfl | hev2
    · simp
    · rcases List.mem_append.mp hev2 with hd | hf
      · obtain ⟨e, he, hsome⟩ := List.mem_filterMap.mp hd
        obtain ⟨k, rs, rfl⟩ := updateEditorDecorationEvent_shape _ _ _ _ hsome
        simp
      · obtain ⟨e, he, hsome⟩ := List.mem_filterMap.mp hf
        obtain ⟨_, rfl⟩ := autoFoldHiddenRanges_shape _ _ _ _ hsome
        simp
  · intro L hL
    obtain ⟨e, he, hsome⟩ := List.mem_filterMap.mp hL
    obtain ⟨hev, hp⟩ := List.mem_filter.mp he
    obtain ⟨heq, hne⟩ := unfoldEventFor_shape _ _ hsome
    refine ⟨e, hev, of_decide_eq_true hp, ?_⟩
    simp only [Event.unfold.injEq] at heq
    exact heq
  · intro e hev hkey hne
    apply List.mem_filterMap.mpr
    refine ⟨e, List.mem_filter.mpr ⟨hev, decide_eq_true hkey⟩, ?_⟩
    simp [unfoldEventFor, hne]
  · intro L hL
    rcases List.mem_cons.mp hL with heq | hL2
    · cases heq
    · rcases List.mem_append.mp hL2 with hd | hf
      · obtain ⟨e, he, hsome⟩ := List.mem_filterMap.mp hd
        obtain ⟨k, rs, heq⟩ := updateEditorDecorationEvent_shape _ _ _ _ hsome
        cases heq
      · obtain ⟨e, he, hsome⟩ := List.mem_filterMap.mp hf
        obtain ⟨hev, hp⟩ := List.mem_filter.mp he
        have hkey := of_decide_eq_true hp
        obtain ⟨_, heq⟩ := autoFoldHiddenRanges_shape _ _ _ _ hsome
        have hc : cacheGet (cacheSet cache docKey regions) (editorKey e) = regions := by
          rw [hkey]
          simp [cacheGet, cacheSet]
        refine ⟨e, hev, hkey, ?_⟩
        simp only [Event.fold.injEq] at heq
        rw [hc] at heq
        exact heq
  · intro e hev hkey hscheme hlang hne
    apply List.mem_cons.mpr
    right
    apply List.mem_append.mpr
    right
    apply List.mem_filterMap.mpr
    have hc : cacheGet (cacheSet cache docKey regions) (editorKey e) = regions := by
      rw [hkey]
      simp [cacheGet, cacheSet]
    refine ⟨e, List.mem_filter.mpr ⟨hev, decide_eq_true hkey⟩, ?_⟩
    rw [autoFoldHiddenRanges_eq_some (cacheSet cache docKey regions) e hscheme hlang
      (by rw [hc]; exact hne)]
    rw [hc]


/-- Every event emitted while refreshing editor decorations is a
setDecorations command. -/
theorem mem_updateActiveEditorEvents (mode : HideIfdefMode) (cache : Cache)
    (active : Option TextEditor) (visible : List TextEditor) (ev : Event)
    (h : ev ∈ updateActiveEditorEvents mode cache active visible) :
    ∃ k rs, ev = Event.setDecorations k rs := by
  unfold updateActiveEditorEvents at h
  rcases List.mem_append.mp h with h1 | h2
  · rcases active with _ | a
    · change ev ∈ ([] : List Event) at h1
      cases h1
    · change ev ∈ (updateEditorDecorationEvent mode cache a).toList at h1
      rcases hs : updateEditorDecorationEvent mode cache a with _ | ev'
      · rw [hs] at h1
        cases h1
      · rw [hs] at h1
        simp only [Option.toList_some, List.mem_singleton] at h1
        subst h1
        exact updateEditorDecorationEvent_shape _ _ _ _ hs
  · obtain ⟨e, he, hsome⟩ := List.mem_filterMap.mp h2
    exact updateEditorDecorationEvent_shape _ _ _ _ hsome

/-- C5: a toggle leaving HiddenFolded enters Visible, issues an unfold
command for the fold blocks of every visible editor computed from the
current cache contents, and leaves no fold command in its trace; a toggle
from any other mode issues no unfold command. -/
theorem toggle_spec (mode : HideIfdefMode) (cache : Cache) (active : Option TextEditor)
    (visible : List TextEditor) :
    (mode = HideIfdefMode.hiddenFolded →
      (toggleCommand mode cache active visible).1 = HideIfdefMode.visible ∧
      (∀ e ∈ visible,
        collectHiddenFoldingRanges e.doc (cacheGet cache (editorKey e)) ≠ [] →
        Event.unfold ((collectHiddenFoldingRanges e.doc (cacheGet cache (editorKey e))).map
          FoldBlock.startLine) ∈ (toggleCommand mode cache active visible).2) ∧
      (∀ L, Event.fold L ∉ (toggleCommand mode cache active visible).2)) ∧
    (mode ≠ HideIfdefMode.hiddenFolded →
      ∀ L, Event.unfold L ∉ (toggleCommand mode cache active visible).2) := by
  constructor
  · intro h
    subst h
    have htr : (toggleCommand HideIfdefMode.hiddenFolded cache active visible).2 =
        [Event.persistMode HideIfdefMode.visible, Event.fireFoldingChanged,
          Event.statusBar HideIfdefMode.visible] ++
        (updateActiveEditorEvents HideIfdefMode.visible cache active visible ++
          (visible.filterMap (fun e =>
            unfoldEventFor (collectHiddenFoldingRanges e.doc (cacheGet cache (editorKey e)))) ++
            [])) := by
      rfl
    refine ⟨rfl, ?_, ?_⟩
    · intro e hev hne
      rw [htr]
      apply List.mem_append.mpr
      right
      apply List.mem_append.mpr
      right
      apply List.mem_append.mpr
      left
      apply List.mem_filterMap.mpr
      refine ⟨e, hev, ?_⟩
      simp [unfoldEventFor, hne]
    · intro L hL
      rw [htr] at hL
      rcases List.mem_append.mp hL with hb | hL2
      · simp at hb
      · rcases List.mem_append.mp hL2 with hd | hu
        · obtain ⟨k, rs, heq⟩ := mem_updateActiveEditorEvents _ _ _ _ _ hd
          cases heq
        · rcases List.mem_append.mp hu with hu1 | hu2
          · obtain ⟨e, he, hsome⟩ := List.mem_filterMap.mp hu1
            obtain ⟨heq, hne⟩ := unfoldEventFor_shape _ _ hsome
            cases heq
          · cases hu2
  · intro h L hL
    have htr : (toggleCommand mode cache active visible).2 =
        [Event.persistMode (nextMode mode), Event.fireFoldingChanged,
          Event.statusBar (nextMode mode)] ++
        (updateActiveEditorEvents (nextMode mode) cache active visible ++
          ([] ++
            (if nextMode mode = HideIfdefMode.hiddenFolded then
              visible.filterMap (autoFoldHiddenRanges (nextMode mode) cache)
            else []))) := by
      simp only [toggleCommand]
      rw [if_neg (fun hcon => h hcon.2)]
    rw [htr] at hL
    rcases List.mem_append.mp hL with hb | hL2
    · simp at hb
    · rcases List.mem_append.mp hL2 with hd | hu
      · obtain ⟨k, rs, heq⟩ := mem_updateActiveEditorEvents _ _ _ _ _ hd
        cases heq
      · rcases List.mem_append.mp hu with hu1 | hu2
        · cases hu1
        · by_cases hnm : nextMode mode = HideIfdefMode.hiddenFolded
          · rw [if_pos hnm] at hu2
            obtain ⟨e, he, hsome⟩ := List.mem_filterMap.mp hu2
            obtain ⟨_, heq⟩ := autoFoldHiddenRanges_shape _ _ _ _ hsome
            cases heq
          · rw [if_neg hnm] at hu2
            cases hu2


/-- Witness for C2 at a concrete mode, cache, key and editor list. -/
theorem notification_order_witness :
    (onInactiveRegionsNotification HideIfdefMode.hiddenFolded emptyCache "k" [] []).2 =
      cacheSet emptyCache "k" [] :=
  (notification_order HideIfdefMode.hiddenFolded emptyCache "k" [] [] rfl).1

/-- Witness for C5 on the scenario document: leaving HiddenFolded unfolds
the block starting at line 2, and a toggle from Visible never unfolds. -/
theorem toggle_spec_witness :
    Event.unfold [2] ∈ (toggleCommand HideIfdefMode.hiddenFolded
        (cacheSet emptyCache "/demo.c" demoInactive) none
        [⟨demoDoc, "file", "c", "/demo.c"⟩]).2 ∧
    Event.unfold [2] ∉ (toggleCommand HideIfdefMode.visible
        (cacheSet emptyCache "/demo.c" demoInactive) none
        [⟨demoDoc, "file", "c", "/demo.c"⟩]).2 :=
  ⟨by
    exact ((toggle_spec HideIfdefMode.hiddenFolded
        (cacheSet emptyCache "/demo.c" demoInactive) none
        [⟨demoDoc, "file", "c", "/demo.c"⟩]).1 rfl).2.1
      ⟨demoDoc, "file", "c", "/demo.c"⟩ (List.mem_singleton.mpr rfl) (by decide),
    (toggle_spec HideIfdefMode.visible
        (cacheSet emptyCache "/demo.c" demoInactive) none
        [⟨demoDoc, "file", "c", "/demo.c"⟩]).2 (by decide) [2]⟩

end HideIfdef
